import Mathlib

/-!
Verification of the `ilist` package: an intrusive doubly linked list
(Go source: `ilist.go`).

Embedding: Go node pointers become natural-number node identifiers; the Go
`nil` pointer becomes `Option.none`, so a link field has type `Option Nat`.
The mutable fields of all nodes (the embedded `Entry` of each node, holding
its `next`/`prev` links) form a heap `Nat → Entry`; the Go methods that
mutate nodes and the list become functions that take and return the heap and
the list value explicitly, performing the same field reads and writes in the
same order as the source.  `PushFrontList`/`PushBackList` dereference a
possibly-nil pointer (`m.tail` resp. `l.tail`/`m.head`); that dereference is
modelled with an `Option` result, `none` standing for the nil-pointer panic
(unreachable when the argument lists satisfy their invariant).
-/

set_option autoImplicit false

namespace ilist

/-- `Entry` is the default implementation of `Linker` (source `Entry[T, U]`):
exactly the two link fields of a node. -/
structure Entry where
  next : Option Nat
  prev : Option Nat
deriving DecidableEq, Repr

/-- Source `Entry.Next`: returns the entry that follows. -/
def Entry.Next (e : Entry) : Option Nat :=
  e.next

/-- Source `Entry.Prev`: returns the entry that precedes. -/
def Entry.Prev (e : Entry) : Option Nat :=
  e.prev

/-- Source `Entry.SetNext`: overwrites the successor link. -/
def Entry.SetNext (e : Entry) (elem : Option Nat) : Entry :=
  { e with next := elem }

/-- Source `Entry.SetPrev`: overwrites the predecessor link. -/
def Entry.SetPrev (e : Entry) (elem : Option Nat) : Entry :=
  { e with prev := elem }

/-- The link fields of all nodes: node identifier to its `Entry`. -/
def Heap : Type :=
  Nat → Entry

/-- `U(e).SetNext(v)` on the heap: update node `e`'s successor link. -/
def setNext (h : Heap) (e : Nat) (v : Option Nat) : Heap :=
  fun x => if x = e then (h e).SetNext v else h x

/-- `U(e).SetPrev(v)` on the heap: update node `e`'s predecessor link. -/
def setPrev (h : Heap) (e : Nat) (v : Option Nat) : Heap :=
  fun x => if x = e then (h e).SetPrev v else h x

/-- Source `List[T, U]`: the intrusive list, holding only `head` and `tail`
(each a node pointer or nil).  Named `IList` because `List` would shadow the
Lean core list type used for the abstraction chains. -/
structure IList where
  head : Option Nat
  tail : Option Nat
deriving DecidableEq, Repr

/-- Source `Reset`: `l.head = nil; l.tail = nil`.  The heap is threaded
through unchanged, making the frame property statable. -/
def Reset (h : Heap) (l : IList) : IList × Heap :=
  (⟨none, none⟩, h)

/-- Source `Empty`: `return l.head == nil`. -/
def Empty (l : IList) : Bool :=
  l.head.isNone

/-- Source `Front`: `return l.head`. -/
def Front (l : IList) : Option Nat :=
  l.head

/-- Source `Back`: `return l.tail`. -/
def Back (l : IList) : Option Nat :=
  l.tail

/-- The loop of source `Len`: `for e := l.Front(); e != nil; e = U(e).Next()
{ count++ }`, with explicit fuel bounding the number of iterations (the Go
loop does not terminate on a heap with a cyclic `next` chain; on a valid
list any fuel of at least the chain length gives the exact count). -/
def lenLoop (h : Heap) : Nat → Option Nat → Nat
  | 0, _ => 0
  | _ + 1, none => 0
  | fuel + 1, some e => lenLoop h fuel ((h e).Next) + 1

/-- Source `Len`: counts nodes by walking next-links from the head. -/
def Len (h : Heap) (l : IList) (fuel : Nat) : Nat :=
  lenLoop h fuel (Front l)

/-- Source `PushFront`:
`U(e).SetNext(l.head); U(e).SetPrev(nil);
if l.head != nil { U(l.head).SetPrev(e) } else { l.tail = e }; l.head = e`. -/
def PushFront (h : Heap) (l : IList) (e : Nat) : IList × Heap :=
  let h1 := setNext h e l.head
  let h2 := setPrev h1 e none
  match l.head with
  | some hd => ({ head := some e, tail := l.tail }, setPrev h2 hd (some e))
  | none => ({ head := some e, tail := some e }, h2)

/-- Source `PushFrontList`:
`if l.head == nil { l.head = m.head; l.tail = m.tail }
else if m.head != nil { U(l.head).SetPrev(m.tail); U(m.tail).SetNext(l.head);
l.head = m.head }; m.head = nil; m.tail = nil`.
Returns `(l, m, heap)`; `none` models the nil dereference of `m.tail`. -/
def PushFrontList (h : Heap) (l m : IList) : Option (IList × IList × Heap) :=
  match l.head with
  | none => some ({ head := m.head, tail := m.tail }, ⟨none, none⟩, h)
  | some lh =>
    match m.head with
    | none => some (l, ⟨none, none⟩, h)
    | some _ =>
      match m.tail with
      | none => none
      | some mt =>
        let h1 := setPrev h lh m.tail
        let h2 := setNext h1 mt l.head
        some ({ head := m.head, tail := l.tail }, ⟨none, none⟩, h2)

/-- Source `PushBack`:
`U(e).SetNext(nil); U(e).SetPrev(l.tail);
if l.tail != nil { U(l.tail).SetNext(e) } else { l.head = e }; l.tail = e`. -/
def PushBack (h : Heap) (l : IList) (e : Nat) : IList × Heap :=
  let h1 := setNext h e none
  let h2 := setPrev h1 e l.tail
  match l.tail with
  | some tl => ({ head := l.head, tail := some e }, setNext h2 tl (some e))
  | none => ({ head := some e, tail := some e }, h2)

/-- Source `PushBackList`:
`if l.head == nil { l.head = m.head; l.tail = m.tail }
else if m.head != nil { U(l.tail).SetNext(m.head); U(m.head).SetPrev(l.tail);
l.tail = m.tail }; m.head = nil; m.tail = nil`.
Returns `(l, m, heap)`; `none` models the nil dereference of `l.tail`. -/
def PushBackList (h : Heap) (l m : IList) : Option (IList × IList × Heap) :=
  match l.head with
  | none => some ({ head := m.head, tail := m.tail }, ⟨none, none⟩, h)
  | some _ =>
    match m.head with
    | none => some (l, ⟨none, none⟩, h)
    | some mh =>
      match l.tail with
      | none => none
      | some lt =>
        let h1 := setNext h lt m.head
        let h2 := setPrev h1 mh l.tail
        some ({ head := l.head, tail := m.tail }, ⟨none, none⟩, h2)

/-- Source `InsertAfter`:
`a := U(b).Next(); U(e).SetNext(a); U(e).SetPrev(b); U(b).SetNext(e);
if a != nil { U(a).SetPrev(e) } else { l.tail = e }`. -/
def InsertAfter (h : Heap) (l : IList) (b e : Nat) : IList × Heap :=
  let a := (h b).Next
  let h1 := setNext h e a
  let h2 := setPrev h1 e (some b)
  let h3 := setNext h2 b (some e)
  match a with
  | some an => (l, setPrev h3 an (some e))
  | none => ({ head := l.head, tail := some e }, h3)

/-- Source `InsertBefore`:
`b := U(a).Prev(); U(e).SetNext(a); U(e).SetPrev(b); U(a).SetPrev(e);
if b != nil { U(b).SetNext(e) } else { l.head = e }`. -/
def InsertBefore (h : Heap) (l : IList) (a e : Nat) : IList × Heap :=
  let b := (h a).Prev
  let h1 := setNext h e (some a)
  let h2 := setPrev h1 e b
  let h3 := setPrev h2 a (some e)
  match b with
  | some bn => (l, setNext h3 bn (some e))
  | none => ({ head := some e, tail := l.tail }, h3)

/-- Source `Remove`:
`prev := U(e).Prev(); next := U(e).Next();
if prev != nil { U(prev).SetNext(next) } else if l.head == e { l.head = next };
if next != nil { U(next).SetPrev(prev) } else if l.tail == e { l.tail = prev };
U(e).SetNext(nil); U(e).SetPrev(nil)`. -/
def Remove (h : Heap) (l : IList) (e : Nat) : IList × Heap :=
  let prev := (h e).Prev
  let next := (h e).Next
  let s1 : IList × Heap :=
    match prev with
    | some p => (l, setNext h p next)
    | none => if l.head = some e then ({ head := next, tail := l.tail }, h) else (l, h)
  let s2 : IList × Heap :=
    match next with
    | some n => (s1.1, setPrev s1.2 n prev)
    | none =>
      if s1.1.tail = some e then ({ head := s1.1.head, tail := prev }, s1.2) else s1
  (s2.1, setPrev (setNext s2.2 e none) e none)

/-- Push each node of `es`, in order, onto the back of the list
(`l.PushBack(e)` iterated). -/
def pushAll (h : Heap) (l : IList) : List Nat → IList × Heap
  | [] => (l, h)
  | e :: es =>
    let s := PushBack h l e
    pushAll s.2 s.1 es

/-- Repeatedly take `Front` and `Remove` it, collecting the removed nodes in
order; fuel bounds the iteration count. -/
def drain (h : Heap) (l : IList) : Nat → List Nat × IList × Heap
  | 0 => ([], l, h)
  | fuel + 1 =>
    match Front l with
    | none => ([], l, h)
    | some e =>
      let s := Remove h l e
      let r := drain s.2 s.1 fuel
      (e :: r.1, r.2)

/-- Concrete fixture: a heap holding the three-node chain `0 → 1 → 2`. -/
def hW : Heap := fun i =>
  if i = 0 then ⟨some 1, none⟩
  else if i = 1 then ⟨some 2, some 0⟩
  else if i = 2 then ⟨none, some 1⟩
  else ⟨none, none⟩

/-- Concrete fixture: the list over `hW` with chain `[0, 1, 2]`. -/
def lW : IList := ⟨some 0, some 2⟩

/-- Concrete fixture: `hW` extended with a second chain `4 → 5`. -/
def hW2 : Heap := fun i =>
  if i = 4 then ⟨some 5, none⟩
  else if i = 5 then ⟨none, some 4⟩
  else hW i

/-- Concrete fixture: the list over `hW2` with chain `[4, 5]`. -/
def mW : IList := ⟨some 4, some 5⟩

/-!
Abstraction layer: a list state is valid when some duplicate-free chain of
node identifiers describes it (§3 invariants).  `chainSeg h p c n` says the
nodes of `c`, in order, are doubly linked among themselves, the first one's
`prev` is `p`, and the last one's `next` is `n` (for the whole list `p` and
`n` are `none`, giving the head/tail boundary invariants).
-/

/-- The successor link expected to enter segment `c`; `d` when `c` is empty. -/
def firstLink (c : List Nat) (d : Option Nat) : Option Nat :=
  match c with
  | [] => d
  | x :: _ => some x

/-- The predecessor link expected leaving segment `c`; `d` when `c` is empty. -/
def lastLink (c : List Nat) (d : Option Nat) : Option Nat :=
  match c.getLast? with
  | none => d
  | some x => some x

/-- The nodes of `c` form a consistent doubly linked segment in heap `h`,
entered with predecessor link `p` and exited with successor link `n`. -/
def chainSeg (h : Heap) : Option Nat → List Nat → Option Nat → Prop
  | _, [], _ => True
  | p, x :: xs, n => (h x).prev = p ∧ (h x).next = firstLink xs n ∧ chainSeg h (some x) xs n

instance decChainSeg (h : Heap) (n : Option Nat) :
    (p : Option Nat) → (c : List Nat) → Decidable (chainSeg h p c n)
  | _, [] => isTrue trivial
  | p, x :: xs =>
    haveI : Decidable (chainSeg h (some x) xs n) := decChainSeg h n (some x) xs
    decidable_of_iff ((h x).prev = p ∧ (h x).next = firstLink xs n ∧ chainSeg h (some x) xs n)
      Iff.rfl

/-- The §3 invariants of the list `l` in heap `h`, witnessed by the chain `c`
of its members in order: the link structure of `c` is a consistent doubly
linked chain with absent `prev` at the first node and absent `next` at the
last, `head`/`tail` are the first/last node of `c` (absent iff `c` is empty),
and `c` has no duplicates (no cycles, no sharing). -/
def listRepr (h : Heap) (l : IList) (c : List Nat) : Prop :=
  chainSeg h none c none ∧ l.head = c.head? ∧ l.tail = c.getLast? ∧ c.Nodup

instance decListRepr (h : Heap) (l : IList) (c : List Nat) : Decidable (listRepr h l c) :=
  inferInstanceAs (Decidable (_ ∧ _ ∧ _ ∧ _))

/-- The list `l` is valid in heap `h`: some chain describes it. -/
def Valid (h : Heap) (l : IList) : Prop :=
  ∃ c : List Nat, listRepr h l c

theorem chainSeg_nil (h : Heap) (p n : Option Nat) : chainSeg h p [] n :=
  trivial

theorem chainSeg_cons (h : Heap) (p n : Option Nat) (x : Nat) (xs : List Nat) :
    chainSeg h p (x :: xs) n ↔
      (h x).prev = p ∧ (h x).next = firstLink xs n ∧ chainSeg h (some x) xs n :=
  Iff.rfl

theorem chainSeg_singleton (h : Heap) (p n : Option Nat) (x : Nat) :
    chainSeg h p [x] n ↔ (h x).prev = p ∧ (h x).next = n :=
  ⟨fun hc => ⟨hc.1, hc.2.1⟩, fun hc => ⟨hc.1, hc.2, trivial⟩⟩

theorem firstLink_append (c1 c2 : List Nat) (d : Option Nat) :
    firstLink (c1 ++ c2) d = firstLink c1 (firstLink c2 d) := by
  cases c1 <;> rfl

theorem lastLink_cons (x : Nat) (xs : List Nat) (d : Option Nat) :
    lastLink (x :: xs) d = lastLink xs (some x) := by
  cases xs with
  | nil => rfl
  | cons y ys =>
    unfold lastLink
    rw [List.getLast?_cons_cons]
    cases hys : (y :: ys).getLast? with
    | none => exact absurd (List.getLast?_eq_none_iff.mp hys) (List.cons_ne_nil y ys)
    | some z => rfl

theorem lastLink_append (c1 c2 : List Nat) (d : Option Nat) :
    lastLink (c1 ++ c2) d = lastLink c2 (lastLink c1 d) := by
  induction c1 generalizing d with
  | nil => rfl
  | cons x xs ih => rw [List.cons_append, lastLink_cons, lastLink_cons, ih]

/-- `chainSeg` only reads the heap at the nodes of the segment. -/
theorem chainSeg_congr (h h' : Heap) (p n : Option Nat) (c : List Nat)
    (agree : ∀ x ∈ c, h' x = h x) : chainSeg h' p c n ↔ chainSeg h p c n := by
  induction c generalizing p with
  | nil => exact Iff.rfl
  | cons x xs ih =>
    rw [chainSeg_cons, chainSeg_cons, agree x (List.mem_cons_self x xs),
      ih (some x) (fun y hy => agree y (List.mem_cons_of_mem x hy))]

/-- Splitting a segment at a concatenation point. -/
theorem chainSeg_append (h : Heap) (p n : Option Nat) (c1 c2 : List Nat) :
    chainSeg h p (c1 ++ c2) n ↔
      chainSeg h p c1 (firstLink c2 n) ∧ chainSeg h (lastLink c1 p) c2 n := by
  induction c1 generalizing p with
  | nil => simp [chainSeg_nil, lastLink]
  | cons x xs ih =>
    rw [List.cons_append, chainSeg_cons, chainSeg_cons, firstLink_append, ih, lastLink_cons]
    tauto

theorem setNext_apply (h : Heap) (e x : Nat) (v : Option Nat) :
    setNext h e v x = if x = e then { h e with next := v } else h x :=
  rfl

theorem setPrev_apply (h : Heap) (e x : Nat) (v : Option Nat) :
    setPrev h e v x = if x = e then { h e with prev := v } else h x :=
  rfl

/-- `PushFront` of a fresh node preserves the representation, with chain
`e :: c`. -/
theorem repr_PushFront (h : Heap) (l : IList) (c : List Nat) (e : Nat)
    (hr : listRepr h l c) (he : e ∉ c) :
    listRepr (PushFront h l e).2 (PushFront h l e).1 (e :: c) := by
  obtain ⟨hchain, hhead, htail, hnodup⟩ := hr
  cases c with
  | nil =>
    simp only [PushFront, hhead]
    refine ⟨?_, rfl, ?_, List.nodup_singleton e⟩
    · rw [chainSeg_singleton]
      constructor <;> simp [setNext_apply, setPrev_apply]
    · simp
  | cons hd rest =>
    have hehd : e ≠ hd := fun hEq => he (hEq ▸ List.mem_cons_self hd rest)
    have herest : e ∉ rest := fun hm => he (List.mem_cons_of_mem hd hm)
    have hhdrest : hd ∉ rest := (List.nodup_cons.mp hnodup).1
    obtain ⟨hp1, hn1, hrest⟩ := (chainSeg_cons h none none hd rest).mp hchain
    simp only [PushFront, hhead, List.head?_cons]
    have agree : ∀ x ∈ rest,
        setPrev (setPrev (setNext h e (some hd)) e none) hd (some e) x = h x := by
      intro x hx
      have hxe : x ≠ e := fun hEq => herest (hEq ▸ hx)
      have hxhd : x ≠ hd := fun hEq => hhdrest (hEq ▸ hx)
      simp [setNext_apply, setPrev_apply, hxe, hxhd]
    refine ⟨?_, rfl, ?_, ?_⟩
    · rw [chainSeg_cons]
      refine ⟨?_, ?_, ?_⟩
      · simp [setNext_apply, setPrev_apply, hehd]
      · simp [setNext_apply, setPrev_apply, hehd, firstLink]
      · rw [chainSeg_cons]
        refine ⟨?_, ?_, ?_⟩
        · simp [setNext_apply, setPrev_apply, Ne.symm hehd]
        · simpa [setNext_apply, setPrev_apply, Ne.symm hehd, hehd] using hn1
        · exact (chainSeg_congr h _ (some hd) none rest agree).mpr hrest
    · rw [htail, List.getLast?_cons_cons]
    · exact List.nodup_cons.mpr ⟨he, hnodup⟩

/-- `PushBack` of a fresh node preserves the representation, with chain
`c ++ [e]`. -/
theorem repr_PushBack (h : Heap) (l : IList) (c : List Nat) (e : Nat)
    (hr : listRepr h l c) (he : e ∉ c) :
    listRepr (PushBack h l e).2 (PushBack h l e).1 (c ++ [e]) := by
  obtain ⟨hchain, hhead, htail, hnodup⟩ := hr
  rcases List.eq_nil_or_concat c with hc | ⟨c0, t, hc⟩
  · subst hc
    simp only [PushBack, htail]
    refine ⟨?_, rfl, rfl, List.nodup_singleton e⟩
    rw [List.nil_append, chainSeg_singleton]
    constructor <;> simp [setNext_apply, setPrev_apply]
  · rw [List.concat_eq_append] at hc
    subst hc
    have htl : (c0 ++ [t]).getLast? = some t := by
      rw [List.getLast?_append]
      rfl
    have het : e ≠ t := fun hEq => he (hEq ▸ List.mem_append_right c0 (List.mem_singleton.mpr rfl))
    have hec0 : e ∉ c0 := fun hm => he (List.mem_append_left [t] hm)
    have htc0 : t ∉ c0 := by
      intro hm
      have := List.disjoint_of_nodup_append hnodup hm
      simp at this
    obtain ⟨hseg0, hsegt⟩ := (chainSeg_append h none none c0 [t]).mp hchain
    rw [chainSeg_singleton] at hsegt
    simp only [PushBack, htail, htl]
    have agree : ∀ x ∈ c0,
        setNext (setPrev (setNext h e none) e (some t)) t (some e) x = h x := by
      intro x hx
      have hxe : x ≠ e := fun hEq => hec0 (hEq ▸ hx)
      have hxt : x ≠ t := fun hEq => htc0 (hEq ▸ hx)
      simp [setNext_apply, setPrev_apply, hxe, hxt]
    refine ⟨?_, ?_, ?_, ?_⟩
    · rw [chainSeg_append]
      constructor
      · rw [chainSeg_append]
        constructor
        · refine (chainSeg_congr h _ none _ c0 agree).mpr ?_
          simpa [firstLink] using hseg0
        · rw [chainSeg_singleton]
          constructor
          · simpa [setNext_apply, setPrev_apply, Ne.symm het] using hsegt.1
          · simp [setNext_apply, setPrev_apply, Ne.symm het, firstLink]
      · rw [chainSeg_singleton, lastLink_append]
        constructor
        · simp [setNext_apply, setPrev_apply, het, lastLink]
        · simp [setNext_apply, setPrev_apply, het]
    · rw [hhead]
      cases c0 <;> rfl
    · rw [List.getLast?_append]
      rfl
    · refine hnodup.append (List.nodup_singleton e) ?_
      intro x hx hx2
      rw [List.mem_singleton] at hx2
      exact he (hx2 ▸ hx)

theorem firstLink_nil (d : Option Nat) : firstLink [] d = d :=
  rfl

theorem firstLink_cons (x : Nat) (xs : List Nat) (d : Option Nat) :
    firstLink (x :: xs) d = some x :=
  rfl

theorem lastLink_nil (d : Option Nat) : lastLink [] d = d :=
  rfl

theorem lastLink_concat (a : List Nat) (t : Nat) (d : Option Nat) :
    lastLink (a ++ [t]) d = some t := by
  rw [lastLink_append]
  rfl

theorem head?_append_firstLink (a b : List Nat) :
    (a ++ b).head? = firstLink a b.head? := by
  cases a <;> rfl

/-- `Remove` of a chain member preserves the representation: the chain loses
exactly that member. -/
theorem repr_Remove (h : Heap) (l : IList) (c1 c2 : List Nat) (e : Nat)
    (hr : listRepr h l (c1 ++ e :: c2)) :
    listRepr (Remove h l e).2 (Remove h l e).1 (c1 ++ c2) := by
  obtain ⟨hchain, hhead, htail, hnodup⟩ := hr
  obtain ⟨hseg1, hseg2⟩ := (chainSeg_append h none none c1 (e :: c2)).mp hchain
  obtain ⟨hep, hen, hsegc2⟩ := (chainSeg_cons h (lastLink c1 none) none e c2).mp hseg2
  obtain ⟨hnd1, hnd2, hdisj⟩ := List.nodup_append.mp hnodup
  obtain ⟨hec2, hndc2⟩ := List.nodup_cons.mp hnd2
  have hec1 : e ∉ c1 := fun hm => hdisj hm (List.mem_cons_self e c2)
  rcases List.eq_nil_or_concat c1 with hc1 | ⟨c10, t, hc1⟩
  · subst hc1
    cases c2 with
    | nil =>
      simp only [List.nil_append, List.head?_cons] at hhead
      simp only [List.nil_append, List.getLast?_singleton] at htail
      simp only [lastLink_nil] at hep
      simp only [firstLink_nil] at hen
      have hres : Remove h l e = (⟨none, none⟩, setPrev (setNext h e none) e none) := by
        simp [Remove, Entry.Prev, Entry.Next, hep, hen, hhead, htail]
      rw [hres]
      exact ⟨trivial, rfl, rfl, List.nodup_nil⟩
    | cons n2 c2' =>
      simp only [List.nil_append, List.head?_cons] at hhead
      simp only [List.nil_append, List.getLast?_cons_cons] at htail
      simp only [lastLink_nil] at hep
      simp only [firstLink_cons] at hen
      obtain ⟨hn2p, hn2n, hsegc2'⟩ := (chainSeg_cons h (some e) none n2 c2').mp hsegc2
      have hen2 : e ≠ n2 := fun hEq => hec2 (hEq ▸ List.mem_cons_self n2 c2')
      have hec2' : e ∉ c2' := fun hm => hec2 (List.mem_cons_of_mem n2 hm)
      obtain ⟨hn2c2', hndc2'⟩ := List.nodup_cons.mp hndc2
      have hres : Remove h l e =
          ({ head := some n2, tail := l.tail },
            setPrev (setNext (setPrev h n2 none) e none) e none) := by
        simp [Remove, Entry.Prev, Entry.Next, hep, hen, hhead]
      rw [hres]
      have agree : ∀ x ∈ c2',
          setPrev (setNext (setPrev h n2 none) e none) e none x = h x := by
        intro x hx
        have hxe : x ≠ e := fun hEq => hec2' (hEq ▸ hx)
        have hxn2 : x ≠ n2 := fun hEq => hn2c2' (hEq ▸ hx)
        simp [setNext_apply, setPrev_apply, hxe, hxn2]
      refine ⟨?_, rfl, ?_, ?_⟩
      · rw [List.nil_append, chainSeg_cons]
        refine ⟨?_, ?_, ?_⟩
        · simp [setNext_apply, setPrev_apply, Ne.symm hen2]
        · simpa [setNext_apply, setPrev_apply, Ne.symm hen2] using hn2n
        · exact (chainSeg_congr h _ (some n2) none c2' agree).mpr hsegc2'
      · exact htail
      · rw [List.nil_append]
        exact hndc2
  · rw [List.concat_eq_append] at hc1
    subst hc1
    have htc10 : t ∉ c10 := by
      obtain ⟨-, -, hd10⟩ := List.nodup_append.mp hnd1
      intro hm
      exact hd10 hm (List.mem_singleton.mpr rfl)
    have het : e ≠ t :=
      fun hEq => hec1 (hEq ▸ List.mem_append_right c10 (List.mem_singleton.mpr rfl))
    have hec10 : e ∉ c10 := fun hm => hec1 (List.mem_append_left [t] hm)
    rw [lastLink_concat] at hep
    obtain ⟨hseg10, hsegt⟩ :=
      (chainSeg_append h none (firstLink (e :: c2) none) c10 [t]).mp hseg1
    rw [chainSeg_singleton] at hsegt
    cases c2 with
    | nil =>
      simp only [firstLink_nil] at hen
      have htail' : l.tail = some e := by
        rw [htail, List.getLast?_append]
        rfl
      have hres : Remove h l e =
          ({ head := l.head, tail := some t },
            setPrev (setNext (setNext h t none) e none) e none) := by
        simp [Remove, Entry.Prev, Entry.Next, hep, hen, htail']
      rw [hres]
      have agree : ∀ x ∈ c10,
          setPrev (setNext (setNext h t none) e none) e none x = h x := by
        intro x hx
        have hxe : x ≠ e := fun hEq => hec10 (hEq ▸ hx)
        have hxt : x ≠ t := fun hEq => htc10 (hEq ▸ hx)
        simp [setNext_apply, setPrev_apply, hxe, hxt]
      rw [List.append_nil]
      refine ⟨?_, ?_, ?_, hnd1⟩
      · rw [chainSeg_append]
        constructor
        · refine (chainSeg_congr h _ none _ c10 agree).mpr ?_
          simpa [firstLink] using hseg10
        · rw [chainSeg_singleton]
          constructor
          · simpa [setNext_apply, setPrev_apply, het, Ne.symm het] using hsegt.1
          · simp [setNext_apply, setPrev_apply, het, Ne.symm het]
      · rw [hhead, head?_append_firstLink, head?_append_firstLink, firstLink_append]
        rfl
      · rw [List.getLast?_append]
        rfl
    | cons n2 c2' =>
      simp only [firstLink_cons] at hen
      obtain ⟨hn2p, hn2n, hsegc2'⟩ := (chainSeg_cons h (some e) none n2 c2').mp hsegc2
      have hen2 : e ≠ n2 := fun hEq => hec2 (hEq ▸ List.mem_cons_self n2 c2')
      have hec2' : e ∉ c2' := fun hm => hec2 (List.mem_cons_of_mem n2 hm)
      obtain ⟨hn2c2', hndc2'⟩ := List.nodup_cons.mp hndc2
      have htmem : t ∈ c10 ++ [t] := List.mem_append_right c10 (List.mem_singleton.mpr rfl)
      have htn2 : t ≠ n2 := by
        intro hEq
        subst hEq
        exact hdisj htmem (List.mem_cons_of_mem e (List.mem_cons_self t c2'))
      have htc2' : t ∉ c2' :=
        fun hm => hdisj htmem (List.mem_cons_of_mem e (List.mem_cons_of_mem n2 hm))
      have hn2c10 : n2 ∉ c10 :=
        fun hm => hdisj (List.mem_append_left [t] hm)
          (List.mem_cons_of_mem e (List.mem_cons_self n2 c2'))
      have hc10c2' : ∀ x ∈ c10, x ∉ c2' :=
        fun x hx hm => hdisj (List.mem_append_left [t] hx)
          (List.mem_cons_of_mem e (List.mem_cons_of_mem n2 hm))
      have hres : Remove h l e =
          (l, setPrev (setNext (setPrev (setNext h t (some n2)) n2 (some t)) e none) e none) := by
        simp [Remove, Entry.Prev, Entry.Next, hep, hen]
      rw [hres]
      have agree10 : ∀ x ∈ c10,
          setPrev (setNext (setPrev (setNext h t (some n2)) n2 (some t)) e none) e none x
            = h x := by
        intro x hx
        have hxe : x ≠ e := fun hEq => hec10 (hEq ▸ hx)
        have hxt : x ≠ t := fun hEq => htc10 (hEq ▸ hx)
        have hxn2 : x ≠ n2 := fun hEq => hn2c10 (hEq ▸ hx)
        simp [setNext_apply, setPrev_apply, hxe, hxt, hxn2]
      have agree2' : ∀ x ∈ c2',
          setPrev (setNext (setPrev (setNext h t (some n2)) n2 (some t)) e none) e none x
            = h x := by
        intro x hx
        have hxe : x ≠ e := fun hEq => hec2' (hEq ▸ hx)
        have hxt : x ≠ t := fun hEq => htc2' (hEq ▸ hx)
        have hxn2 : x ≠ n2 := fun hEq => hn2c2' (hEq ▸ hx)
        simp [setNext_apply, setPrev_apply, hxe, hxt, hxn2]
      refine ⟨?_, ?_, ?_, ?_⟩
      · rw [chainSeg_append]
        constructor
        · rw [chainSeg_append]
          constructor
          · refine (chainSeg_congr h _ none _ c10 agree10).mpr ?_
            simpa [firstLink] using hseg10
          · rw [chainSeg_singleton]
            constructor
            · simpa [setNext_apply, setPrev_apply, het, Ne.symm het, htn2, Ne.symm htn2]
                using hsegt.1
            · simp [setNext_apply, setPrev_apply, het, Ne.symm het, htn2, Ne.symm htn2,
                firstLink]
        · rw [lastLink_concat, chainSeg_cons]
          refine ⟨?_, ?_, ?_⟩
          · simp [setNext_apply, setPrev_apply, Ne.symm hen2, Ne.symm htn2]
          · simpa [setNext_apply, setPrev_apply, Ne.symm hen2, Ne.symm htn2] using hn2n
          · exact (chainSeg_congr h _ (some n2) none c2' agree2').mpr hsegc2'
      · rw [hhead, head?_append_firstLink, head?_append_firstLink, firstLink_append,
          firstLink_append]
        rfl
      · simp [htail, List.getLast?_append]
      · refine List.nodup_append.mpr ⟨hnd1, hndc2, ?_⟩
        intro x hx hm
        rcases List.mem_append.mp hx with hx10 | hxt
        · rcases List.mem_cons.mp hm with hEq | hm2'
          · exact hn2c10 (hEq ▸ hx10)
          · exact hc10c2' x hx10 hm2'
        · rw [List.mem_singleton] at hxt
          subst hxt
          rcases List.mem_cons.mp hm with hEq | hm2'
          · exact htn2 hEq
          · exact htc2' hm2'

/-- Inserting a fresh identifier in the middle of a duplicate-free list keeps
it duplicate-free. -/
theorem nodup_insertMid (c1 c2 : List Nat) (b e : Nat)
    (hnd : (c1 ++ b :: c2).Nodup) (he : e ∉ c1 ++ b :: c2) :
    (c1 ++ b :: e :: c2).Nodup := by
  have hp : (c1 ++ [b] ++ e :: c2).Perm (e :: (c1 ++ [b] ++ c2)) := List.perm_middle
  have h1 : c1 ++ [b] ++ e :: c2 = c1 ++ b :: e :: c2 := by simp
  have h2 : c1 ++ [b] ++ c2 = c1 ++ b :: c2 := by simp
  rw [h1, h2] at hp
  exact hp.nodup_iff.mpr (List.nodup_cons.mpr ⟨he, hnd⟩)

/-- `InsertAfter` a member `b` with a fresh node `e` preserves the
representation: `e` enters the chain immediately after `b`. -/
theorem repr_InsertAfter (h : Heap) (l : IList) (c1 c2 : List Nat) (b e : Nat)
    (hr : listRepr h l (c1 ++ b :: c2)) (he : e ∉ c1 ++ b :: c2) :
    listRepr (InsertAfter h l b e).2 (InsertAfter h l b e).1 (c1 ++ b :: e :: c2) := by
  obtain ⟨hchain, hhead, htail, hnodup⟩ := hr
  obtain ⟨hseg1, hseg2⟩ := (chainSeg_append h none none c1 (b :: c2)).mp hchain
  obtain ⟨hbp, hbn, hsegc2⟩ := (chainSeg_cons h (lastLink c1 none) none b c2).mp hseg2
  obtain ⟨hnd1, hnd2, hdisj⟩ := List.nodup_append.mp hnodup
  obtain ⟨hbc2, hndc2⟩ := List.nodup_cons.mp hnd2
  have hbc1 : b ∉ c1 := fun hm => hdisj hm (List.mem_cons_self b c2)
  have heb : e ≠ b := by
    intro hEq
    subst hEq
    exact he (List.mem_append_right c1 (List.mem_cons_self e c2))
  have hec1 : e ∉ c1 := fun hm => he (List.mem_append_left (b :: c2) hm)
  have hec2 : e ∉ c2 :=
    fun hm => he (List.mem_append_right c1 (List.mem_cons_of_mem b hm))
  have hnodup' := nodup_insertMid c1 c2 b e hnodup he
  cases c2 with
  | nil =>
    simp only [firstLink_nil] at hbn
    have hres : InsertAfter h l b e =
        ({ head := l.head, tail := some e },
          setNext (setPrev (setNext h e none) e (some b)) b (some e)) := by
      simp [InsertAfter, Entry.Next, hbn]
    rw [hres]
    have agree : ∀ x ∈ c1,
        setNext (setPrev (setNext h e none) e (some b)) b (some e) x = h x := by
      intro x hx
      have hxe : x ≠ e := fun hEq => hec1 (hEq ▸ hx)
      have hxb : x ≠ b := fun hEq => hbc1 (hEq ▸ hx)
      simp [setNext_apply, setPrev_apply, hxe, hxb]
    refine ⟨?_, ?_, ?_, hnodup'⟩
    · rw [chainSeg_append]
      constructor
      · refine (chainSeg_congr h _ none _ c1 agree).mpr ?_
        simpa [firstLink] using hseg1
      · rw [chainSeg_cons]
        refine ⟨?_, ?_, ?_⟩
        · simpa [setNext_apply, setPrev_apply, heb, Ne.symm heb] using hbp
        · simp [setNext_apply, setPrev_apply, heb, Ne.symm heb, firstLink]
        · rw [chainSeg_singleton]
          constructor
          · simp [setNext_apply, setPrev_apply, heb, Ne.symm heb]
          · simp [setNext_apply, setPrev_apply, heb, Ne.symm heb]
    · rw [hhead]
      simp [head?_append_firstLink]
    · simp [htail, List.getLast?_append]
  | cons n2 c2' =>
    simp only [firstLink_cons] at hbn
    obtain ⟨hn2p, hn2n, hsegc2'⟩ := (chainSeg_cons h (some b) none n2 c2').mp hsegc2
    have hbn2 : b ≠ n2 := fun hEq => hbc2 (hEq ▸ List.mem_cons_self n2 c2')
    have hbc2' : b ∉ c2' := fun hm => hbc2 (List.mem_cons_of_mem n2 hm)
    have hen2 : e ≠ n2 := fun hEq => hec2 (hEq ▸ List.mem_cons_self n2 c2')
    have hec2' : e ∉ c2' := fun hm => hec2 (List.mem_cons_of_mem n2 hm)
    obtain ⟨hn2c2', hndc2'⟩ := List.nodup_cons.mp hndc2
    have hn2c1 : n2 ∉ c1 :=
      fun hm => hdisj hm (List.mem_cons_of_mem b (List.mem_cons_self n2 c2'))
    have hres : InsertAfter h l b e =
        (l, setPrev (setNext (setPrev (setNext h e (some n2)) e (some b)) b (some e))
          n2 (some e)) := by
      simp [InsertAfter, Entry.Next, hbn]
    rw [hres]
    have agree1 : ∀ x ∈ c1,
        setPrev (setNext (setPrev (setNext h e (some n2)) e (some b)) b (some e))
          n2 (some e) x = h x := by
      intro x hx
      have hxe : x ≠ e := fun hEq => hec1 (hEq ▸ hx)
      have hxb : x ≠ b := fun hEq => hbc1 (hEq ▸ hx)
      have hxn2 : x ≠ n2 := fun hEq => hn2c1 (hEq ▸ hx)
      simp [setNext_apply, setPrev_apply, hxe, hxb, hxn2]
    have agree2' : ∀ x ∈ c2',
        setPrev (setNext (setPrev (setNext h e (some n2)) e (some b)) b (some e))
          n2 (some e) x = h x := by
      intro x hx
      have hxe : x ≠ e := fun hEq => hec2' (hEq ▸ hx)
      have hxb : x ≠ b := fun hEq => hbc2' (hEq ▸ hx)
      have hxn2 : x ≠ n2 := fun hEq => hn2c2' (hEq ▸ hx)
      simp [setNext_apply, setPrev_apply, hxe, hxb, hxn2]
    refine ⟨?_, ?_, ?_, hnodup'⟩
    · rw [chainSeg_append]
      constructor
      · refine (chainSeg_congr h _ none _ c1 agree1).mpr ?_
        simpa [firstLink] using hseg1
      · rw [chainSeg_cons]
        refine ⟨?_, ?_, ?_⟩
        · simpa [setNext_apply, setPrev_apply, heb, Ne.symm heb, hbn2, Ne.symm hbn2]
            using hbp
        · simp [setNext_apply, setPrev_apply, heb, Ne.symm heb, hbn2, Ne.symm hbn2,
            firstLink]
        · rw [chainSeg_cons]
          refine ⟨?_, ?_, ?_⟩
          · simp [setNext_apply, setPrev_apply, heb, Ne.symm heb, hen2, Ne.symm hen2]
          · simp [setNext_apply, setPrev_apply, heb, Ne.symm heb, hen2, Ne.symm hen2,
              firstLink]
          · rw [chainSeg_cons]
            refine ⟨?_, ?_, ?_⟩
            · simp [setNext_apply, setPrev_apply, Ne.symm hen2, Ne.symm hbn2]
            · simpa [setNext_apply, setPrev_apply, Ne.symm hen2, Ne.symm hbn2] using hn2n
            · exact (chainSeg_congr h _ (some n2) none c2' agree2').mpr hsegc2'
    · rw [hhead]
      simp [head?_append_firstLink]
    · simp [htail, List.getLast?_append]

/-- Inserting a fresh identifier at a split point of a duplicate-free list
keeps it duplicate-free. -/
theorem nodup_insertAt (c1 c2 : List Nat) (e : Nat)
    (hnd : (c1 ++ c2).Nodup) (he : e ∉ c1 ++ c2) : (c1 ++ e :: c2).Nodup := by
  have hp : (c1 ++ e :: c2).Perm (e :: (c1 ++ c2)) := List.perm_middle
  exact hp.nodup_iff.mpr (List.nodup_cons.mpr ⟨he, hnd⟩)

/-- `InsertBefore` a member `a` with a fresh node `e` preserves the
representation: `e` enters the chain immediately before `a`. -/
theorem repr_InsertBefore (h : Heap) (l : IList) (c1 c2 : List Nat) (a e : Nat)
    (hr : listRepr h l (c1 ++ a :: c2)) (he : e ∉ c1 ++ a :: c2) :
    listRepr (InsertBefore h l a e).2 (InsertBefore h l a e).1 (c1 ++ e :: a :: c2) := by
  obtain ⟨hchain, hhead, htail, hnodup⟩ := hr
  obtain ⟨hseg1, hseg2⟩ := (chainSeg_append h none none c1 (a :: c2)).mp hchain
  obtain ⟨hap, han, hsegc2⟩ := (chainSeg_cons h (lastLink c1 none) none a c2).mp hseg2
  obtain ⟨hnd1, hnd2, hdisj⟩ := List.nodup_append.mp hnodup
  obtain ⟨hac2, hndc2⟩ := List.nodup_cons.mp hnd2
  have hac1 : a ∉ c1 := fun hm => hdisj hm (List.mem_cons_self a c2)
  have hea : e ≠ a := by
    intro hEq
    subst hEq
    exact he (List.mem_append_right c1 (List.mem_cons_self e c2))
  have hec1 : e ∉ c1 := fun hm => he (List.mem_append_left (a :: c2) hm)
  have hec2 : e ∉ c2 :=
    fun hm => he (List.mem_append_right c1 (List.mem_cons_of_mem a hm))
  have hnodup' : (c1 ++ e :: a :: c2).Nodup := nodup_insertAt c1 (a :: c2) e hnodup he
  rcases List.eq_nil_or_concat c1 with hc1 | ⟨c10, t, hc1⟩
  · subst hc1
    simp only [lastLink_nil] at hap
    have hres : InsertBefore h l a e =
        ({ head := some e, tail := l.tail },
          setPrev (setPrev (setNext h e (some a)) e none) a (some e)) := by
      simp [InsertBefore, Entry.Prev, hap]
    rw [hres]
    have agree : ∀ x ∈ c2,
        setPrev (setPrev (setNext h e (some a)) e none) a (some e) x = h x := by
      intro x hx
      have hxe : x ≠ e := fun hEq => hec2 (hEq ▸ hx)
      have hxa : x ≠ a := fun hEq => hac2 (hEq ▸ hx)
      simp [setNext_apply, setPrev_apply, hxe, hxa]
    refine ⟨?_, rfl, ?_, hnodup'⟩
    · rw [List.nil_append, chainSeg_cons]
      refine ⟨?_, ?_, ?_⟩
      · simp [setNext_apply, setPrev_apply, hea, Ne.symm hea]
      · simp [setNext_apply, setPrev_apply, hea, Ne.symm hea, firstLink]
      · rw [chainSeg_cons]
        refine ⟨?_, ?_, ?_⟩
        · simp [setNext_apply, setPrev_apply, hea, Ne.symm hea]
        · simpa [setNext_apply, setPrev_apply, hea, Ne.symm hea] using han
        · exact (chainSeg_congr h _ (some a) none c2 agree).mpr hsegc2
    · simp [htail]
  · rw [List.concat_eq_append] at hc1
    subst hc1
    have htc10 : t ∉ c10 := by
      obtain ⟨-, -, hd10⟩ := List.nodup_append.mp hnd1
      intro hm
      exact hd10 hm (List.mem_singleton.mpr rfl)
    have het : e ≠ t := by
      intro hEq
      subst hEq
      exact hec1 (List.mem_append_right c10 (List.mem_singleton.mpr rfl))
    have hec10 : e ∉ c10 := fun hm => hec1 (List.mem_append_left [t] hm)
    have hat : a ≠ t := by
      intro hEq
      subst hEq
      exact hac1 (List.mem_append_right c10 (List.mem_singleton.mpr rfl))
    have hac10 : a ∉ c10 := fun hm => hac1 (List.mem_append_left [t] hm)
    have htmem : t ∈ c10 ++ [t] := List.mem_append_right c10 (List.mem_singleton.mpr rfl)
    have htc2 : t ∉ c2 :=
      fun hm => hdisj htmem (List.mem_cons_of_mem a hm)
    rw [lastLink_concat] at hap
    obtain ⟨hseg10, hsegt⟩ :=
      (chainSeg_append h none (firstLink (a :: c2) none) c10 [t]).mp hseg1
    rw [chainSeg_singleton] at hsegt
    have hres : InsertBefore h l a e =
        (l, setNext (setPrev (setPrev (setNext h e (some a)) e (some t)) a (some e))
          t (some e)) := by
      simp [InsertBefore, Entry.Prev, hap]
    rw [hres]
    have agree10 : ∀ x ∈ c10,
        setNext (setPrev (setPrev (setNext h e (some a)) e (some t)) a (some e))
          t (some e) x = h x := by
      intro x hx
      have hxe : x ≠ e := fun hEq => hec10 (hEq ▸ hx)
      have hxa : x ≠ a := fun hEq => hac10 (hEq ▸ hx)
      have hxt : x ≠ t := fun hEq => htc10 (hEq ▸ hx)
      simp [setNext_apply, setPrev_apply, hxe, hxa, hxt]
    have agree2 : ∀ x ∈ c2,
        setNext (setPrev (setPrev (setNext h e (some a)) e (some t)) a (some e))
          t (some e) x = h x := by
      intro x hx
      have hxe : x ≠ e := fun hEq => hec2 (hEq ▸ hx)
      have hxa : x ≠ a := fun hEq => hac2 (hEq ▸ hx)
      have hxt : x ≠ t := fun hEq => htc2 (hEq ▸ hx)
      simp [setNext_apply, setPrev_apply, hxe, hxa, hxt]
    refine ⟨?_, ?_, ?_, ?_⟩
    · rw [chainSeg_append]
      constructor
      · rw [chainSeg_append]
        constructor
        · refine (chainSeg_congr h _ none _ c10 agree10).mpr ?_
          simpa [firstLink] using hseg10
        · rw [chainSeg_singleton]
          constructor
          · simpa [setNext_apply, setPrev_apply, het, Ne.symm het, hat, Ne.symm hat]
              using hsegt.1
          · simp [setNext_apply, setPrev_apply, het, Ne.symm het, hat, Ne.symm hat,
              firstLink]
      · rw [lastLink_concat, chainSeg_cons]
        refine ⟨?_, ?_, ?_⟩
        · simp [setNext_apply, setPrev_apply, het, Ne.symm het, hea, Ne.symm hea]
        · simp [setNext_apply, setPrev_apply, het, Ne.symm het, hea, Ne.symm hea,
            firstLink]
        · rw [chainSeg_cons]
          refine ⟨?_, ?_, ?_⟩
          · simp [setNext_apply, setPrev_apply, Ne.symm hea, hat, Ne.symm hat]
          · simpa [setNext_apply, setPrev_apply, Ne.symm hea, hat, Ne.symm hat] using han
          · exact (chainSeg_congr h _ (some a) none c2 agree2).mpr hsegc2
    · rw [hhead]
      simp [head?_append_firstLink, firstLink_append]
    · simp [htail, List.getLast?_append]
    · have : (c10 ++ [t]) ++ e :: a :: c2 = (c10 ++ [t]) ++ e :: (a :: c2) := rfl
      exact hnodup'

theorem getLast?_eq_lastLink (c : List Nat) : c.getLast? = lastLink c none := by
  unfold lastLink
  cases c.getLast? <;> rfl

theorem firstLink_concat_head? (a : List Nat) (t : Nat) (d : Option Nat) :
    firstLink (a ++ [t]) d = (a ++ [t]).head? := by
  cases a <;> rfl

/-- `PushFrontList` on valid disjoint lists succeeds, empties `m`, and the
receiver's chain is `m`'s chain followed by `l`'s old chain. -/
theorem repr_PushFrontList (h : Heap) (l m : IList) (cl cm : List Nat)
    (hrl : listRepr h l cl) (hrm : listRepr h m cm) (hdisj : ∀ x ∈ cl, x ∉ cm) :
    ∃ l' h', PushFrontList h l m = some (l', ⟨none, none⟩, h') ∧
      listRepr h' l' (cm ++ cl) := by
  obtain ⟨hcl, hlh, hlt, hndl⟩ := hrl
  obtain ⟨hcm, hmh, hmt, hndm⟩ := hrm
  cases cl with
  | nil =>
    refine ⟨{ head := m.head, tail := m.tail }, h, ?_, ?_⟩
    · simp only [List.head?_nil] at hlh
      simp [PushFrontList, hlh]
    · rw [List.append_nil]
      exact ⟨hcm, hmh, hmt, hndm⟩
  | cons lh cl' =>
    simp only [List.head?_cons] at hlh
    cases cm with
    | nil =>
      simp only [List.head?_nil] at hmh
      refine ⟨l, h, ?_, ?_⟩
      · simp [PushFrontList, hlh, hmh]
      · exact ⟨hcl, by rw [hlh]; rfl, hlt, hndl⟩
    | cons mh cm' =>
      rcases List.eq_nil_or_concat (mh :: cm') with hcm' | ⟨cm0, mt, hccat⟩
      · exact absurd hcm' (List.cons_ne_nil mh cm')
      rw [List.concat_eq_append] at hccat
      have hmh' : m.head = some mh := by rw [hmh]; rfl
      have hmt' : m.tail = some mt := by rw [hmt, hccat, List.getLast?_append]; rfl
      have hmh2 : (cm0 ++ [mt]).head? = some mh := by rw [← hccat]; rfl
      rw [hccat] at hcm hndm hdisj ⊢
      obtain ⟨hseg0, hsegmt⟩ :=
        (chainSeg_append h none none cm0 [mt]).mp hcm
      rw [chainSeg_singleton] at hsegmt
      obtain ⟨hlhp, hlhn, hsegcl'⟩ := (chainSeg_cons h none none lh cl').mp hcl
      obtain ⟨hndcm0, -, hdcm0⟩ := List.nodup_append.mp hndm
      have hmtcm0 : mt ∉ cm0 :=
        fun hm2 => hdcm0 hm2 (List.mem_singleton.mpr rfl)
      have hlhcm : lh ∉ cm0 ++ [mt] := hdisj lh (List.mem_cons_self lh cl')
      have hlhmt : lh ≠ mt :=
        fun hEq => hlhcm (hEq ▸ List.mem_append_right cm0 (List.mem_singleton.mpr rfl))
      have hlhcm0 : lh ∉ cm0 := fun hm2 => hlhcm (List.mem_append_left [mt] hm2)
      obtain ⟨hlhcl', hndcl'⟩ := List.nodup_cons.mp hndl
      refine ⟨{ head := some mh, tail := l.tail }, setNext (setPrev h lh (some mt)) mt (some lh),
        ?_, ?_, ?_, ?_, ?_⟩
      · simp [PushFrontList, hlh, hmh', hmt']
      · have agree0 : ∀ x ∈ cm0, setNext (setPrev h lh (some mt)) mt (some lh) x = h x := by
          intro x hx
          have hxlh : x ≠ lh := fun hEq => hlhcm0 (hEq ▸ hx)
          have hxmt : x ≠ mt := fun hEq => hmtcm0 (hEq ▸ hx)
          simp [setNext_apply, setPrev_apply, hxlh, hxmt]
        have agree' : ∀ x ∈ cl', setNext (setPrev h lh (some mt)) mt (some lh) x = h x := by
          intro x hx
          have hxlh : x ≠ lh := fun hEq => hlhcl' (hEq ▸ hx)
          have hxmt : x ≠ mt := by
            intro hEq
            exact hdisj x (List.mem_cons_of_mem lh hx)
              (hEq ▸ List.mem_append_right cm0 (List.mem_singleton.mpr rfl))
          simp [setNext_apply, setPrev_apply, hxlh, hxmt]
        rw [chainSeg_append]
        constructor
        · rw [chainSeg_append]
          constructor
          · refine (chainSeg_congr h _ none _ cm0 agree0).mpr ?_
            simpa [firstLink] using hseg0
          · rw [chainSeg_singleton]
            constructor
            · simpa [setNext_apply, setPrev_apply, hlhmt, Ne.symm hlhmt] using hsegmt.1
            · simp [setNext_apply, setPrev_apply, hlhmt, Ne.symm hlhmt, firstLink]
        · rw [lastLink_concat, chainSeg_cons]
          refine ⟨?_, ?_, ?_⟩
          · simp [setNext_apply, setPrev_apply, hlhmt, Ne.symm hlhmt]
          · simpa [setNext_apply, setPrev_apply, hlhmt, Ne.symm hlhmt] using hlhn
          · exact (chainSeg_congr h _ (some lh) none cl' agree').mpr hsegcl'
      · rw [head?_append_firstLink, firstLink_concat_head?, hmh2]
      · rw [hlt, getLast?_eq_lastLink, getLast?_eq_lastLink, lastLink_append,
          lastLink_cons, lastLink_cons]
      · refine List.nodup_append.mpr ⟨hndm, hndl, ?_⟩
        intro x hx hx2
        exact hdisj x hx2 hx

/-- `PushBackList` on valid disjoint lists succeeds, empties `m`, and the
receiver's chain is its old chain followed by `m`'s chain. -/
theorem repr_PushBackList (h : Heap) (l m : IList) (cl cm : List Nat)
    (hrl : listRepr h l cl) (hrm : listRepr h m cm) (hdisj : ∀ x ∈ cl, x ∉ cm) :
    ∃ l' h', PushBackList h l m = some (l', ⟨none, none⟩, h') ∧
      listRepr h' l' (cl ++ cm) := by
  obtain ⟨hcl, hlh, hlt, hndl⟩ := hrl
  obtain ⟨hcm, hmh, hmt, hndm⟩ := hrm
  cases cl with
  | nil =>
    refine ⟨{ head := m.head, tail := m.tail }, h, ?_, ?_⟩
    · simp only [List.head?_nil] at hlh
      simp [PushBackList, hlh]
    · rw [List.nil_append]
      exact ⟨hcm, hmh, hmt, hndm⟩
  | cons lh0 cl' =>
    simp only [List.head?_cons] at hlh
    cases cm with
    | nil =>
      simp only [List.head?_nil] at hmh
      refine ⟨l, h, ?_, ?_⟩
      · simp [PushBackList, hlh, hmh]
      · exact ⟨by rw [List.append_nil]; exact hcl, by rw [hlh]; rfl,
          by rw [List.append_nil]; exact hlt, by rw [List.append_nil]; exact hndl⟩
    | cons mh cm' =>
      rcases List.eq_nil_or_concat (lh0 :: cl') with hcl' | ⟨cl0, lt, hccat⟩
      · exact absurd hcl' (List.cons_ne_nil lh0 cl')
      rw [List.concat_eq_append] at hccat
      have hmh' : m.head = some mh := by rw [hmh]; rfl
      have hlt' : l.tail = some lt := by rw [hlt, hccat, List.getLast?_append]; rfl
      have hlh2 : (cl0 ++ [lt]).head? = some lh0 := by rw [← hccat]; rfl
      rw [hccat] at hcl hndl hdisj ⊢
      obtain ⟨hseg0, hseglt⟩ :=
        (chainSeg_append h none none cl0 [lt]).mp hcl
      rw [chainSeg_singleton] at hseglt
      obtain ⟨hmhp, hmhn, hsegcm'⟩ := (chainSeg_cons h none none mh cm').mp hcm
      obtain ⟨hndcl0, -, hdcl0⟩ := List.nodup_append.mp hndl
      have hltcl0 : lt ∉ cl0 :=
        fun hm2 => hdcl0 hm2 (List.mem_singleton.mpr rfl)
      have hltmem : lt ∈ cl0 ++ [lt] := List.mem_append_right cl0 (List.mem_singleton.mpr rfl)
      have hltcm : lt ∉ mh :: cm' := hdisj lt hltmem
      have hltmh : lt ≠ mh := fun hEq => hltcm (hEq ▸ List.mem_cons_self mh cm')
      have hltcm' : lt ∉ cm' := fun hm2 => hltcm (List.mem_cons_of_mem mh hm2)
      obtain ⟨hmhcm', hndcm'⟩ := List.nodup_cons.mp hndm
      refine ⟨{ head := l.head, tail := m.tail }, setPrev (setNext h lt (some mh)) mh (some lt),
        ?_, ?_, ?_, ?_, ?_⟩
      · simp [PushBackList, hlh, hmh', hlt']
      · have agree0 : ∀ x ∈ cl0, setPrev (setNext h lt (some mh)) mh (some lt) x = h x := by
          intro x hx
          have hxlt : x ≠ lt := fun hEq => hltcl0 (hEq ▸ hx)
          have hxmh : x ≠ mh := by
            intro hEq
            exact hdisj x (List.mem_append_left [lt] hx) (hEq ▸ List.mem_cons_self mh cm')
          simp [setNext_apply, setPrev_apply, hxlt, hxmh]
        have agree' : ∀ x ∈ cm', setPrev (setNext h lt (some mh)) mh (some lt) x = h x := by
          intro x hx
          have hxmh : x ≠ mh := fun hEq => hmhcm' (hEq ▸ hx)
          have hxlt : x ≠ lt := fun hEq => hltcm' (hEq ▸ hx)
          simp [setNext_apply, setPrev_apply, hxlt, hxmh]
        rw [chainSeg_append]
        constructor
        · rw [chainSeg_append]
          constructor
          · refine (chainSeg_congr h _ none _ cl0 agree0).mpr ?_
            simpa [firstLink] using hseg0
          · rw [chainSeg_singleton]
            constructor
            · simpa [setNext_apply, setPrev_apply, hltmh, Ne.symm hltmh] using hseglt.1
            · simp [setNext_apply, setPrev_apply, hltmh, Ne.symm hltmh, firstLink]
        · rw [lastLink_concat, chainSeg_cons]
          refine ⟨?_, ?_, ?_⟩
          · simp [setNext_apply, setPrev_apply, hltmh, Ne.symm hltmh]
          · simpa [setNext_apply, setPrev_apply, hltmh, Ne.symm hltmh] using hmhn
          · exact (chainSeg_congr h _ (some mh) none cm' agree').mpr hsegcm'
      · rw [hlh, head?_append_firstLink, firstLink_append, firstLink_cons, ← hlh2,
          head?_append_firstLink]
        rfl
      · rw [hmt, getLast?_eq_lastLink, getLast?_eq_lastLink, lastLink_append,
          lastLink_cons, lastLink_cons]
      · refine List.nodup_append.mpr ⟨hndl, hndm, ?_⟩
        intro x hx hx2
        exact hdisj x hx hx2

theorem head?_eq_firstLink (c : List Nat) : c.head? = firstLink c none := by
  cases c <;> rfl

/-- The `Len` loop, given enough fuel, counts exactly the nodes of a chain
segment that ends in `nil`. -/
theorem lenLoop_chainSeg (h : Heap) (c : List Nat) :
    ∀ (p : Option Nat) (fuel : Nat), c.length ≤ fuel →
      chainSeg h p c none → lenLoop h fuel (firstLink c none) = c.length := by
  induction c with
  | nil =>
    intro p fuel _ _
    cases fuel <;> rfl
  | cons x xs ih =>
    intro p fuel hfuel hc
    obtain ⟨-, hn, hc'⟩ := (chainSeg_cons h p none x xs).mp hc
    cases fuel with
    | zero => exact absurd hfuel (by simp)
    | succ f =>
      rw [firstLink_cons]
      show lenLoop h f ((h x).Next) + 1 = (x :: xs).length
      rw [Entry.Next, hn, ih (some x) f (by simpa using hfuel) hc']
      rfl

/-- On a valid list, `Len` with enough fuel returns the chain length. -/
theorem Len_listRepr (h : Heap) (l : IList) (c : List Nat) (fuel : Nat)
    (hr : listRepr h l c) (hfuel : c.length ≤ fuel) : Len h l fuel = c.length := by
  obtain ⟨hchain, hhead, -, -⟩ := hr
  rw [Len, Front, hhead, head?_eq_firstLink]
  exact lenLoop_chainSeg h c none fuel hfuel hchain

/-- The empty list is valid with the empty chain. -/
theorem listRepr_empty (h : Heap) : listRepr h ⟨none, none⟩ [] :=
  ⟨trivial, rfl, rfl, List.nodup_nil⟩

theorem repr_pushAll (es : List Nat) : ∀ (h : Heap) (l : IList) (c : List Nat),
    listRepr h l c → (c ++ es).Nodup →
    listRepr (pushAll h l es).2 (pushAll h l es).1 (c ++ es) := by
  induction es with
  | nil =>
    intro h l c hr _
    rw [List.append_nil]
    exact hr
  | cons e es' ih =>
    intro h l c hr hnd
    have he : e ∉ c := by
      obtain ⟨-, -, hd⟩ := List.nodup_append.mp hnd
      exact fun hm => hd hm (List.mem_cons_self e es')
    have h1 := repr_PushBack h l c e hr he
    have hnd' : ((c ++ [e]) ++ es').Nodup := by simpa using hnd
    have h2 := ih (PushBack h l e).2 (PushBack h l e).1 (c ++ [e]) h1 hnd'
    simpa [pushAll] using h2

theorem repr_drain (c : List Nat) : ∀ (h : Heap) (l : IList),
    listRepr h l c →
    (drain h l c.length).1 = c ∧ (drain h l c.length).2.1 = (⟨none, none⟩ : IList) := by
  induction c with
  | nil =>
    intro h l hr
    obtain ⟨-, hh, ht, -⟩ := hr
    refine ⟨rfl, ?_⟩
    show l = (⟨none, none⟩ : IList)
    cases l
    simp only [List.head?_nil] at hh
    simp only [List.getLast?_nil] at ht
    simp_all
  | cons e c' ih =>
    intro h l hr
    have hh : l.head = some e := by rw [hr.2.1]; rfl
    have hrem : listRepr (Remove h l e).2 (Remove h l e).1 c' :=
      repr_Remove h l [] c' e hr
    obtain ⟨h1, h2⟩ := ih (Remove h l e).2 (Remove h l e).1 hrem
    constructor
    · show (drain h l (c'.length + 1)).1 = e :: c'
      simp [drain, Front, hh, h1]
    · show (drain h l (c'.length + 1)).2.1 = (⟨none, none⟩ : IList)
      simp [drain, Front, hh, h2]

theorem setPrev_congr (f g : Heap) (i : Nat) (v : Option Nat)
    (hfg : ∀ x, f x = g x) : ∀ x, setPrev f i v x = setPrev g i v x := by
  intro x
  simp [setPrev_apply, hfg i, hfg x]

theorem setNext_congr (f g : Heap) (i : Nat) (v : Option Nat)
    (hfg : ∀ x, f x = g x) : ∀ x, setNext f i v x = setNext g i v x := by
  intro x
  simp [setNext_apply, hfg i, hfg x]

/-- C1: For every valid list configuration (head absent iff tail absent;
head's prev absent; tail's next absent; next/prev links forming a consistent
acyclic doubly-linked chain — all expressed by `listRepr`/`Valid`), every
public operation of `List`, invoked with its stated preconditions met,
returns with all of these invariants holding again.  The queries `Empty`,
`Front`, `Back` and `Len` are pure in this embedding (they return values
without touching the heap or the list), so preservation is definitional for
them; `Reset` and the seven mutating operations are covered explicitly.
Splice preconditions: the other list is valid and (caller invariant: a node
belongs to at most one list) its chain is disjoint from this one's. -/
theorem C1_ops_preserve_invariants (h : Heap) (l m : IList) (c cm : List Nat)
    (b a e r : Nat) (hr : listRepr h l c) :
    listRepr (Reset h l).2 (Reset h l).1 [] ∧
    (e ∉ c → Valid (PushFront h l e).2 (PushFront h l e).1) ∧
    (e ∉ c → Valid (PushBack h l e).2 (PushBack h l e).1) ∧
    (listRepr h m cm → (∀ x ∈ c, x ∉ cm) →
      ∃ l' h', PushFrontList h l m = some (l', ⟨none, none⟩, h') ∧
        Valid h' l' ∧ Valid h' (⟨none, none⟩ : IList)) ∧
    (listRepr h m cm → (∀ x ∈ c, x ∉ cm) →
      ∃ l' h', PushBackList h l m = some (l', ⟨none, none⟩, h') ∧
        Valid h' l' ∧ Valid h' (⟨none, none⟩ : IList)) ∧
    (b ∈ c → e ∉ c → Valid (InsertAfter h l b e).2 (InsertAfter h l b e).1) ∧
    (a ∈ c → e ∉ c → Valid (InsertBefore h l a e).2 (InsertBefore h l a e).1) ∧
    (r ∈ c → Valid (Remove h l r).2 (Remove h l r).1) := by
  refine ⟨listRepr_empty h, ?_, ?_, ?_, ?_, ?_, ?_, ?_⟩
  · intro he
    exact ⟨e :: c, repr_PushFront h l c e hr he⟩
  · intro he
    exact ⟨c ++ [e], repr_PushBack h l c e hr he⟩
  · intro hrm hdisj
    obtain ⟨l', h', heq, hrep⟩ := repr_PushFrontList h l m c cm hr hrm hdisj
    exact ⟨l', h', heq, ⟨cm ++ c, hrep⟩, ⟨[], listRepr_empty h'⟩⟩
  · intro hrm hdisj
    obtain ⟨l', h', heq, hrep⟩ := repr_PushBackList h l m c cm hr hrm hdisj
    exact ⟨l', h', heq, ⟨c ++ cm, hrep⟩, ⟨[], listRepr_empty h'⟩⟩
  · intro hb he
    obtain ⟨c1, c2, hc⟩ := List.append_of_mem hb
    subst hc
    exact ⟨c1 ++ b :: e :: c2, repr_InsertAfter h l c1 c2 b e hr he⟩
  · intro ha he
    obtain ⟨c1, c2, hc⟩ := List.append_of_mem ha
    subst hc
    exact ⟨c1 ++ e :: a :: c2, repr_InsertBefore h l c1 c2 a e hr he⟩
  · intro hrm
    obtain ⟨c1, c2, hc⟩ := List.append_of_mem hrm
    subst hc
    exact ⟨c1 ++ c2, repr_Remove h l c1 c2 r hr⟩

/-- Witness for C1 at the concrete three-node list `[0, 1, 2]` in `hW2`,
with the two-node list `[4, 5]` as the splice argument: the invariant
hypotheses hold and, sampling the conjuncts, `Remove 1`, `InsertAfter 1 7`
and `PushBackList` all return valid states. -/
theorem C1_ops_preserve_invariants_witness :
    listRepr hW2 lW [0, 1, 2] ∧ listRepr hW2 mW [4, 5] ∧
    Valid (Remove hW2 lW 1).2 (Remove hW2 lW 1).1 ∧
    Valid (InsertAfter hW2 lW 1 7).2 (InsertAfter hW2 lW 1 7).1 ∧
    (∃ l' h', PushBackList hW2 lW mW = some (l', ⟨none, none⟩, h') ∧
      Valid h' l' ∧ Valid h' (⟨none, none⟩ : IList)) :=
  ⟨by decide, by decide,
    (C1_ops_preserve_invariants hW2 lW mW [0, 1, 2] [4, 5] 1 1 7 1
      (by decide)).2.2.2.2.2.2.2 (by decide),
    (C1_ops_preserve_invariants hW2 lW mW [0, 1, 2] [4, 5] 1 1 7 1
      (by decide)).2.2.2.2.2.1 (by decide) (by decide),
    (C1_ops_preserve_invariants hW2 lW mW [0, 1, 2] [4, 5] 1 1 7 1
      (by decide)).2.2.2.2.1 (by decide) (by decide)⟩

theorem firstLink_eq_none (c : List Nat) (hc : firstLink c none = none) : c = [] := by
  cases c with
  | nil => rfl
  | cons x xs =>
    rw [firstLink_cons] at hc
    cases hc

theorem lastLink_eq_none (c : List Nat) (hc : lastLink c none = none) : c = [] := by
  rcases List.eq_nil_or_concat c with h2 | ⟨a, t, h2⟩
  · exact h2
  · rw [List.concat_eq_append] at h2
    subst h2
    rw [lastLink_concat] at hc
    cases hc

theorem chainSeg_concat_facts (h : Heap) (p n : Option Nat) (c0 : List Nat) (t : Nat)
    (hc : chainSeg h p (c0 ++ [t]) n) : (h t).prev = lastLink c0 p ∧ (h t).next = n := by
  obtain ⟨-, hs⟩ := (chainSeg_append h p n c0 [t]).mp hc
  exact (chainSeg_singleton h (lastLink c0 p) n t).mp hs

/-- Two lists with the same head and tail are equal. -/
theorem IList.eq_of_parts (a b : IList) (hh : a.head = b.head) (ht : a.tail = b.tail) :
    a = b := by
  cases a
  cases b
  simp_all

/-- C2: Removing a member `e` (sitting between chain prefix `c1` and suffix
`c2`) re-sets `e`'s links to absent, links `e`'s former predecessor and
successor directly to each other (updating head/tail instead when `e` was an
endpoint), decreases the length by exactly one, and the remaining chain
satisfies all the §3 invariants (`listRepr`). -/
theorem C2_Remove_unlinks_member (h : Heap) (l : IList) (c1 c2 : List Nat) (e : Nat)
    (hr : listRepr h l (c1 ++ e :: c2)) :
    ((Remove h l e).2 e).next = none ∧
    ((Remove h l e).2 e).prev = none ∧
    listRepr (Remove h l e).2 (Remove h l e).1 (c1 ++ c2) ∧
    (c1 ++ c2).length + 1 = (c1 ++ e :: c2).length ∧
    (∀ p, (h e).prev = some p → ((Remove h l e).2 p).next = (h e).next) ∧
    (∀ n, (h e).next = some n → ((Remove h l e).2 n).prev = (h e).prev) ∧
    ((h e).prev = none → (Remove h l e).1.head = (h e).next) ∧
    ((h e).next = none → (Remove h l e).1.tail = (h e).prev) := by
  have hrep := repr_Remove h l c1 c2 e hr
  obtain ⟨hchain, hhead, htail, hnodup⟩ := hr
  obtain ⟨hseg1, hseg2⟩ := (chainSeg_append h none none c1 (e :: c2)).mp hchain
  obtain ⟨hep, hen, hsegc2⟩ := (chainSeg_cons h (lastLink c1 none) none e c2).mp hseg2
  refine ⟨?_, ?_, hrep, ?_, ?_, ?_, ?_, ?_⟩
  · simp [Remove, setNext_apply, setPrev_apply]
  · simp [Remove, setNext_apply, setPrev_apply]
  · simp [List.length_append]
    omega
  · intro p hpeq
    have hl2 : lastLink c1 none = some p := by rw [← hep, hpeq]
    rcases List.eq_nil_or_concat c1 with hc1 | ⟨c10, t, hc1⟩
    · subst hc1
      rw [lastLink_nil] at hl2
      cases hl2
    · rw [List.concat_eq_append] at hc1
      subst hc1
      rw [lastLink_concat] at hl2
      injection hl2 with hl2
      subst hl2
      obtain ⟨hsegA, -⟩ :=
        (chainSeg_append (Remove h l e).2 none none (c10 ++ [t]) c2).mp hrep.1
      have hfact :=
        (chainSeg_concat_facts (Remove h l e).2 none (firstLink c2 none) c10 t hsegA).2
      rw [hfact, hen]
  · intro n hneq
    have hf : firstLink c2 none = some n := by rw [← hen, hneq]
    cases c2 with
    | nil =>
      rw [firstLink_nil] at hf
      cases hf
    | cons c20 c2'' =>
      rw [firstLink_cons] at hf
      injection hf with hf
      subst hf
      obtain ⟨-, hsegB⟩ :=
        (chainSeg_append (Remove h l e).2 none none c1 (c20 :: c2'')).mp hrep.1
      have hfact := ((chainSeg_cons (Remove h l e).2 (lastLink c1 none) none c20 c2'').mp
        hsegB).1
      rw [hfact, ← hep]
  · intro hpn
    have hc1 : c1 = [] := lastLink_eq_none c1 (by rw [← hep, hpn])
    subst hc1
    rw [hrep.2.1, hen, List.nil_append, head?_eq_firstLink]
  · intro hnn
    have hc2 : c2 = [] := firstLink_eq_none c2 (by rw [← hen, hnn])
    subst hc2
    rw [hrep.2.2.1, hep, List.append_nil, getLast?_eq_lastLink]

/-- Witness for C2: removing the middle node 1 of the chain `[0, 1, 2]`. -/
theorem C2_Remove_unlinks_member_witness :
    listRepr hW lW ([0] ++ 1 :: [2]) ∧
    (((Remove hW lW 1).2 1).next = none ∧
     ((Remove hW lW 1).2 1).prev = none ∧
     listRepr (Remove hW lW 1).2 (Remove hW lW 1).1 ([0] ++ [2]) ∧
     ([0] ++ [2] : List Nat).length + 1 = ([0] ++ 1 :: [2] : List Nat).length ∧
     (∀ p, (hW 1).prev = some p → ((Remove hW lW 1).2 p).next = (hW 1).next) ∧
     (∀ n, (hW 1).next = some n → ((Remove hW lW 1).2 n).prev = (hW 1).prev) ∧
     ((hW 1).prev = none → (Remove hW lW 1).1.head = (hW 1).next) ∧
     ((hW 1).next = none → (Remove hW lW 1).1.tail = (hW 1).prev)) :=
  ⟨by decide, C2_Remove_unlinks_member hW lW [0] [2] 1 (by decide)⟩

/-- C4: `PushFront` sets `e.next` to the old head and `e.prev` to absent,
sets the old head's `prev` to `e` when it existed (leaving the tail alone)
and otherwise sets the tail to `e`, and finally sets the head to `e`; the
symmetric statements hold for `PushBack`.  The precondition that `e` is not
already linked into the list is needed only as: `e` is not the current
head (resp. tail). -/
theorem C4_push_link_effects (h : Heap) (l : IList) (e : Nat)
    (hf : l.head ≠ some e) (hb : l.tail ≠ some e) :
    ((PushFront h l e).2 e).next = l.head ∧
    ((PushFront h l e).2 e).prev = none ∧
    (∀ hd, l.head = some hd → ((PushFront h l e).2 hd).prev = some e ∧
      (PushFront h l e).1.tail = l.tail) ∧
    (l.head = none → (PushFront h l e).1.tail = some e) ∧
    (PushFront h l e).1.head = some e ∧
    ((PushBack h l e).2 e).prev = l.tail ∧
    ((PushBack h l e).2 e).next = none ∧
    (∀ tl, l.tail = some tl → ((PushBack h l e).2 tl).next = some e ∧
      (PushBack h l e).1.head = l.head) ∧
    (l.tail = none → (PushBack h l e).1.head = some e) ∧
    (PushBack h l e).1.tail = some e := by
  have hfe : ∀ hd, l.head = some hd → e ≠ hd := by
    intro hd hEq h2
    subst h2
    exact hf hEq
  have hbe : ∀ tl, l.tail = some tl → e ≠ tl := by
    intro tl hEq h2
    subst h2
    exact hb hEq
  refine ⟨?_, ?_, ?_, ?_, ?_, ?_, ?_, ?_, ?_, ?_⟩
  · cases hl : l.head with
    | none => simp [PushFront, hl, setNext_apply, setPrev_apply]
    | some hd => simp [PushFront, hl, setNext_apply, setPrev_apply, hfe hd hl]
  · cases hl : l.head with
    | none => simp [PushFront, hl, setNext_apply, setPrev_apply]
    | some hd => simp [PushFront, hl, setNext_apply, setPrev_apply, hfe hd hl]
  · intro hd hl
    refine ⟨?_, ?_⟩
    · simp [PushFront, hl, setNext_apply, setPrev_apply]
    · simp [PushFront, hl]
  · intro hl
    simp [PushFront, hl]
  · cases hl : l.head with
    | none => simp [PushFront, hl]
    | some hd => simp [PushFront, hl]
  · cases hl : l.tail with
    | none => simp [PushBack, hl, setNext_apply, setPrev_apply]
    | some tl => simp [PushBack, hl, setNext_apply, setPrev_apply, hbe tl hl]
  · cases hl : l.tail with
    | none => simp [PushBack, hl, setNext_apply, setPrev_apply]
    | some tl => simp [PushBack, hl, setNext_apply, setPrev_apply, hbe tl hl]
  · intro tl hl
    refine ⟨?_, ?_⟩
    · simp [PushBack, hl, setNext_apply, setPrev_apply]
    · simp [PushBack, hl]
  · intro hl
    simp [PushBack, hl]
  · cases hl : l.tail with
    | none => simp [PushBack, hl]
    | some tl => simp [PushBack, hl]

/-- Witness for C4: pushing the fresh node 5 onto `[0, 1, 2]`. -/
theorem C4_push_link_effects_witness :
    (lW.head ≠ some 5 ∧ lW.tail ≠ some 5) ∧
    (((PushFront hW lW 5).2 5).next = lW.head ∧
     ((PushFront hW lW 5).2 5).prev = none ∧
     (∀ hd, lW.head = some hd → ((PushFront hW lW 5).2 hd).prev = some 5 ∧
       (PushFront hW lW 5).1.tail = lW.tail) ∧
     (lW.head = none → (PushFront hW lW 5).1.tail = some 5) ∧
     (PushFront hW lW 5).1.head = some 5 ∧
     ((PushBack hW lW 5).2 5).prev = lW.tail ∧
     ((PushBack hW lW 5).2 5).next = none ∧
     (∀ tl, lW.tail = some tl → ((PushBack hW lW 5).2 tl).next = some 5 ∧
       (PushBack hW lW 5).1.head = lW.head) ∧
     (lW.tail = none → (PushBack hW lW 5).1.head = some 5) ∧
     (PushBack hW lW 5).1.tail = some 5) :=
  ⟨by decide, C4_push_link_effects hW lW 5 (by decide) (by decide)⟩

/-- C5: `InsertAfter b e` on a member `b` (between chain prefix `c1` and
suffix `c2`) with a fresh node `e` places `e` immediately after `b`: it sets
`b.next` to `e`, `e.prev` to `b`, `e.next` to `b`'s old successor, and
either that successor's `prev` to `e` or, when `b` was the tail, the list's
tail to `e`; the head is unchanged and the resulting chain is the old one
with `e` inserted after `b`. -/
theorem C5_InsertAfter_places_after (h : Heap) (l : IList) (c1 c2 : List Nat) (b e : Nat)
    (hr : listRepr h l (c1 ++ b :: c2)) (he : e ∉ c1 ++ b :: c2) :
    ((InsertAfter h l b e).2 b).next = some e ∧
    ((InsertAfter h l b e).2 e).prev = some b ∧
    ((InsertAfter h l b e).2 e).next = (h b).next ∧
    (∀ a2, (h b).next = some a2 → ((InsertAfter h l b e).2 a2).prev = some e ∧
      (InsertAfter h l b e).1.tail = l.tail) ∧
    ((h b).next = none → (InsertAfter h l b e).1.tail = some e) ∧
    (InsertAfter h l b e).1.head = l.head ∧
    listRepr (InsertAfter h l b e).2 (InsertAfter h l b e).1 (c1 ++ b :: e :: c2) := by
  have hrep := repr_InsertAfter h l c1 c2 b e hr he
  obtain ⟨hchain, hhead, htail, hnodup⟩ := hr
  obtain ⟨hseg1, hseg2⟩ := (chainSeg_append h none none c1 (b :: c2)).mp hchain
  obtain ⟨hbp, hbn, hsegc2⟩ := (chainSeg_cons h (lastLink c1 none) none b c2).mp hseg2
  obtain ⟨hnd1, hnd2, hdisj⟩ := List.nodup_append.mp hnodup
  obtain ⟨hbc2, hndc2⟩ := List.nodup_cons.mp hnd2
  have heb : e ≠ b := by
    intro hEq
    subst hEq
    exact he (List.mem_append_right c1 (List.mem_cons_self e c2))
  have hec2 : e ∉ c2 :=
    fun hm => he (List.mem_append_right c1 (List.mem_cons_of_mem b hm))
  cases c2 with
  | nil =>
    simp only [firstLink_nil] at hbn
    have hres : InsertAfter h l b e =
        ({ head := l.head, tail := some e },
          setNext (setPrev (setNext h e none) e (some b)) b (some e)) := by
      simp [InsertAfter, Entry.Next, hbn]
    rw [hres] at hrep ⊢
    refine ⟨?_, ?_, ?_, ?_, ?_, rfl, hrep⟩
    · simp [setNext_apply, setPrev_apply]
    · simp [setNext_apply, setPrev_apply, heb, Ne.symm heb]
    · simp [setNext_apply, setPrev_apply, heb, Ne.symm heb, hbn]
    · intro a2 ha2
      rw [hbn] at ha2
      cases ha2
    · intro _
      rfl
  | cons n2 c2' =>
    simp only [firstLink_cons] at hbn
    have hbn2 : b ≠ n2 := fun hEq => hbc2 (hEq ▸ List.mem_cons_self n2 c2')
    have hen2 : e ≠ n2 := fun hEq => hec2 (hEq ▸ List.mem_cons_self n2 c2')
    have hres : InsertAfter h l b e =
        (l, setPrev (setNext (setPrev (setNext h e (some n2)) e (some b)) b (some e))
          n2 (some e)) := by
      simp [InsertAfter, Entry.Next, hbn]
    rw [hres] at hrep ⊢
    refine ⟨?_, ?_, ?_, ?_, ?_, rfl, hrep⟩
    · simp [setNext_apply, setPrev_apply, heb, Ne.symm heb, hbn2, Ne.symm hbn2, hen2,
        Ne.symm hen2]
    · simp [setNext_apply, setPrev_apply, heb, Ne.symm heb, hbn2, Ne.symm hbn2, hen2,
        Ne.symm hen2]
    · simp [setNext_apply, setPrev_apply, heb, Ne.symm heb, hbn2, Ne.symm hbn2, hen2,
        Ne.symm hen2, hbn]
    · intro a2 ha2
      rw [hbn] at ha2
      injection ha2 with ha2
      subst ha2
      exact ⟨by simp [setNext_apply, setPrev_apply], rfl⟩
    · intro hcon
      rw [hbn] at hcon
      cases hcon

/-- Witness for C5: inserting the fresh node 7 after the middle node 1 of
`[0, 1, 2]`. -/
theorem C5_InsertAfter_places_after_witness :
    (listRepr hW lW ([0] ++ 1 :: [2]) ∧ 7 ∉ ([0] ++ 1 :: [2] : List Nat)) ∧
    (((InsertAfter hW lW 1 7).2 1).next = some 7 ∧
     ((InsertAfter hW lW 1 7).2 7).prev = some 1 ∧
     ((InsertAfter hW lW 1 7).2 7).next = (hW 1).next ∧
     (∀ a2, (hW 1).next = some a2 → ((InsertAfter hW lW 1 7).2 a2).prev = some 7 ∧
       (InsertAfter hW lW 1 7).1.tail = lW.tail) ∧
     ((hW 1).next = none → (InsertAfter hW lW 1 7).1.tail = some 7) ∧
     (InsertAfter hW lW 1 7).1.head = lW.head ∧
     listRepr (InsertAfter hW lW 1 7).2 (InsertAfter hW lW 1 7).1 ([0] ++ 1 :: 7 :: [2])) :=
  ⟨⟨by decide, by decide⟩,
    C5_InsertAfter_places_after hW lW [0] [2] 1 7 (by decide) (by decide)⟩

/-- C3: For valid lists `l` (chain `cl`) and `m` (chain `cm`, disjoint from
`cl`; `m` distinct from `l` — automatic here because lists are values in the
embedding), `PushFrontList`/`PushBackList` succeed, `m` comes back empty,
the spliced chain is `cm ++ cl` (m's nodes before l's old contents) resp.
`cl ++ cm` (after them) — so the relative order of both lists' nodes is
preserved — the new length is the sum of the old lengths, if `l` was empty
it adopts `m`'s head and tail, and if `m` was empty `l` is unchanged. -/
theorem C3_splice_lists (h : Heap) (l m : IList) (cl cm : List Nat)
    (hrl : listRepr h l cl) (hrm : listRepr h m cm) (hdisj : ∀ x ∈ cl, x ∉ cm) :
    (∃ l' h', PushFrontList h l m = some (l', ⟨none, none⟩, h') ∧
      Empty (⟨none, none⟩ : IList) = true ∧
      listRepr h' l' (cm ++ cl) ∧
      (∀ fuel, cm.length + cl.length ≤ fuel → Len h' l' fuel = cm.length + cl.length) ∧
      (l.head = none → l' = { head := m.head, tail := m.tail }) ∧
      (cm = [] → l' = l)) ∧
    (∃ l' h', PushBackList h l m = some (l', ⟨none, none⟩, h') ∧
      Empty (⟨none, none⟩ : IList) = true ∧
      listRepr h' l' (cl ++ cm) ∧
      (∀ fuel, cl.length + cm.length ≤ fuel → Len h' l' fuel = cl.length + cm.length) ∧
      (l.head = none → l' = { head := m.head, tail := m.tail }) ∧
      (cm = [] → l' = l)) := by
  constructor
  · obtain ⟨l', h', heq, hrep⟩ := repr_PushFrontList h l m cl cm hrl hrm hdisj
    refine ⟨l', h', heq, rfl, hrep, ?_, ?_, ?_⟩
    · intro fuel hfuel
      have hlen := Len_listRepr h' l' (cm ++ cl) fuel hrep
        (by rw [List.length_append]; omega)
      rw [hlen, List.length_append]
    · intro hl0
      have hcl : cl = [] := by
        have h2 := hrl.2.1
        rw [hl0] at h2
        exact List.head?_eq_none_iff.mp h2.symm
      subst hcl
      refine IList.eq_of_parts l' _ ?_ ?_
      · rw [hrep.2.1, List.append_nil, ← hrm.2.1]
      · rw [hrep.2.2.1, List.append_nil, ← hrm.2.2.1]
    · intro hcm
      subst hcm
      refine IList.eq_of_parts l' l ?_ ?_
      · rw [hrep.2.1, List.nil_append, ← hrl.2.1]
      · rw [hrep.2.2.1, List.nil_append, ← hrl.2.2.1]
  · obtain ⟨l', h', heq, hrep⟩ := repr_PushBackList h l m cl cm hrl hrm hdisj
    refine ⟨l', h', heq, rfl, hrep, ?_, ?_, ?_⟩
    · intro fuel hfuel
      have hlen := Len_listRepr h' l' (cl ++ cm) fuel hrep
        (by rw [List.length_append]; omega)
      rw [hlen, List.length_append]
    · intro hl0
      have hcl : cl = [] := by
        have h2 := hrl.2.1
        rw [hl0] at h2
        exact List.head?_eq_none_iff.mp h2.symm
      subst hcl
      refine IList.eq_of_parts l' _ ?_ ?_
      · rw [hrep.2.1, List.nil_append, ← hrm.2.1]
      · rw [hrep.2.2.1, List.nil_append, ← hrm.2.2.1]
    · intro hcm
      subst hcm
      refine IList.eq_of_parts l' l ?_ ?_
      · rw [hrep.2.1, List.append_nil, ← hrl.2.1]
      · rw [hrep.2.2.1, List.append_nil, ← hrl.2.2.1]

/-- Witness for C3: splicing `[4, 5]` into `[0, 1, 2]` within `hW2`. -/
theorem C3_splice_lists_witness :
    (listRepr hW2 lW [0, 1, 2] ∧ listRepr hW2 mW [4, 5] ∧
      (∀ x ∈ ([0, 1, 2] : List Nat), x ∉ ([4, 5] : List Nat))) ∧
    (∃ l' h', PushFrontList hW2 lW mW = some (l', ⟨none, none⟩, h') ∧
      Empty (⟨none, none⟩ : IList) = true ∧
      listRepr h' l' ([4, 5] ++ [0, 1, 2]) ∧
      (∀ fuel, ([4, 5] : List Nat).length + ([0, 1, 2] : List Nat).length ≤ fuel →
        Len h' l' fuel =
          ([4, 5] : List Nat).length + ([0, 1, 2] : List Nat).length) ∧
      (lW.head = none → l' = { head := mW.head, tail := mW.tail }) ∧
      (([4, 5] : List Nat) = [] → l' = lW)) :=
  ⟨⟨by decide, by decide, by decide⟩,
    (C3_splice_lists hW2 lW mW [0, 1, 2] [4, 5] (by decide) (by decide) (by decide)).1⟩

/-- C6: Pushing `n` distinct fresh nodes onto an initially empty list with
`PushBack` in order, then repeatedly taking `Front()` and removing it,
yields the nodes in exactly the original insertion order, and the list is
empty at the end. -/
theorem C6_fifo_roundtrip (h : Heap) (nodes : List Nat) (hnd : nodes.Nodup) :
    (drain (pushAll h ⟨none, none⟩ nodes).2 (pushAll h ⟨none, none⟩ nodes).1
      nodes.length).1 = nodes ∧
    (drain (pushAll h ⟨none, none⟩ nodes).2 (pushAll h ⟨none, none⟩ nodes).1
      nodes.length).2.1 = (⟨none, none⟩ : IList) := by
  have hrep := repr_pushAll nodes h ⟨none, none⟩ [] (listRepr_empty h) (by simpa using hnd)
  exact repr_drain nodes (pushAll h ⟨none, none⟩ nodes).2
    (pushAll h ⟨none, none⟩ nodes).1 (by simpa using hrep)

/-- Witness for C6: the round trip on the three distinct nodes `[3, 1, 4]`
starting from the all-absent heap. -/
theorem C6_fifo_roundtrip_witness :
    ([3, 1, 4] : List Nat).Nodup ∧
    ((drain (pushAll (fun _ => ⟨none, none⟩) ⟨none, none⟩ [3, 1, 4]).2
        (pushAll (fun _ => ⟨none, none⟩) ⟨none, none⟩ [3, 1, 4]).1
        ([3, 1, 4] : List Nat).length).1 = [3, 1, 4] ∧
     (drain (pushAll (fun _ => ⟨none, none⟩) ⟨none, none⟩ [3, 1, 4]).2
        (pushAll (fun _ => ⟨none, none⟩) ⟨none, none⟩ [3, 1, 4]).1
        ([3, 1, 4] : List Nat).length).2.1 = (⟨none, none⟩ : IList)) :=
  ⟨by decide, C6_fifo_roundtrip (fun _ => ⟨none, none⟩) [3, 1, 4] (by decide)⟩

/-- C7: `Reset` clears the list's head and tail to absent and modifies
nothing else: the heap — holding the next/prev link fields of every node,
including the nodes that were in the list — is returned untouched. -/
theorem C7_Reset_frame (h : Heap) (l : IList) :
    (Reset h l).1.head = none ∧ (Reset h l).1.tail = none ∧
    ∀ x, (Reset h l).2 x = h x :=
  ⟨rfl, rfl, fun _ => rfl⟩

/-- C8: Every empty list (head and tail absent, in particular the zero
value) answers all queries without failure: `Empty` is true, `Front` and
`Back` are absent, and `Len` is `0` for every fuel bound. -/
theorem C8_empty_queries (h : Heap) (l : IList) (fuel : Nat)
    (hh : l.head = none) (ht : l.tail = none) :
    Empty l = true ∧ Front l = none ∧ Back l = none ∧ Len h l fuel = 0 := by
  refine ⟨by rw [Empty, hh]; rfl, hh, ht, ?_⟩
  rw [Len, Front, hh]
  cases fuel <;> rfl

/-- Witness for C8 at the zero-value list over the all-absent heap. -/
theorem C8_empty_queries_witness :
    (⟨none, none⟩ : IList).head = none ∧ (⟨none, none⟩ : IList).tail = none ∧
    (Empty ⟨none, none⟩ = true ∧ Front ⟨none, none⟩ = none ∧
      Back ⟨none, none⟩ = none ∧ Len (fun _ => ⟨none, none⟩) ⟨none, none⟩ 3 = 0) :=
  ⟨rfl, rfl, C8_empty_queries (fun _ => ⟨none, none⟩) ⟨none, none⟩ 3 rfl rfl⟩

/-- C9: `PushFront` and `PushBack` overwrite both of `e`'s link fields
before reading anything from `e`: two runs from heaps that differ only at
`e` (stale next/prev values, e.g. left over after a `Reset` of `e`'s old
list) produce identical final lists and identical final heaps. -/
theorem C9_push_ignores_stale_links (h1 h2 : Heap) (l : IList) (e : Nat)
    (hagree : ∀ x, x ≠ e → h1 x = h2 x) :
    (PushFront h1 l e).1 = (PushFront h2 l e).1 ∧
    (∀ x, (PushFront h1 l e).2 x = (PushFront h2 l e).2 x) ∧
    (PushBack h1 l e).1 = (PushBack h2 l e).1 ∧
    (∀ x, (PushBack h1 l e).2 x = (PushBack h2 l e).2 x) := by
  have key : ∀ x v w, setPrev (setNext h1 e v) e w x = setPrev (setNext h2 e v) e w x := by
    intro x v w
    by_cases hx : x = e
    · subst hx
      simp [setNext_apply, setPrev_apply]
    · simp [setNext_apply, setPrev_apply, hx, hagree x hx]
  refine ⟨?_, ?_, ?_, ?_⟩
  · simp only [PushFront]
    cases l.head <;> rfl
  · intro x
    simp only [PushFront]
    cases l.head with
    | none => exact key x none none
    | some hd => exact setPrev_congr _ _ hd (some e) (fun y => key y (some hd) none) x
  · simp only [PushBack]
    cases l.tail <;> rfl
  · intro x
    simp only [PushBack]
    cases l.tail with
    | none => exact key x none none
    | some tl => exact setNext_congr _ _ tl (some e) (fun y => key y none (some tl)) x

/-- Witness for C9: a clean heap versus one where node 5 carries stale
links; pushing 5 gives identical results. -/
theorem C9_push_ignores_stale_links_witness :
    (∀ x, x ≠ 5 → (fun _ => (⟨none, none⟩ : Entry)) x =
      (fun i => if i = 5 then (⟨some 9, some 7⟩ : Entry) else ⟨none, none⟩) x) ∧
    ((PushFront (fun _ => ⟨none, none⟩) lW 5).1 =
      (PushFront (fun i => if i = 5 then ⟨some 9, some 7⟩ else ⟨none, none⟩) lW 5).1 ∧
     (∀ x, (PushFront (fun _ => ⟨none, none⟩) lW 5).2 x =
      (PushFront (fun i => if i = 5 then ⟨some 9, some 7⟩ else ⟨none, none⟩) lW 5).2 x) ∧
     (PushBack (fun _ => ⟨none, none⟩) lW 5).1 =
      (PushBack (fun i => if i = 5 then ⟨some 9, some 7⟩ else ⟨none, none⟩) lW 5).1 ∧
     (∀ x, (PushBack (fun _ => ⟨none, none⟩) lW 5).2 x =
      (PushBack (fun i => if i = 5 then ⟨some 9, some 7⟩ else ⟨none, none⟩) lW 5).2 x)) :=
  ⟨fun x hx => by simp [hx],
    C9_push_ignores_stale_links (fun _ => ⟨none, none⟩)
      (fun i => if i = 5 then ⟨some 9, some 7⟩ else ⟨none, none⟩) lW 5
      (fun x hx => by simp [hx])⟩

/-- C10: Removing a node whose links are both absent and which is neither
head nor tail is a complete no-op: the list is unchanged and every node's
link fields (including `e`'s, which are re-set to absent, their current
values) are unchanged. -/
theorem C10_remove_nonmember_noop (h : Heap) (l : IList) (e : Nat)
    (hn : (h e).next = none) (hp : (h e).prev = none)
    (hh : l.head ≠ some e) (ht : l.tail ≠ some e) :
    (Remove h l e).1 = l ∧
    ((Remove h l e).2 e).next = none ∧ ((Remove h l e).2 e).prev = none ∧
    ∀ x, (Remove h l e).2 x = h x := by
  have hres : Remove h l e = (l, setPrev (setNext h e none) e none) := by
    simp [Remove, Entry.Prev, Entry.Next, hn, hp, hh, ht]
  rw [hres]
  refine ⟨rfl, ?_, ?_, ?_⟩
  · simp [setNext_apply, setPrev_apply]
  · simp [setNext_apply, setPrev_apply]
  · intro x
    by_cases hx : x = e
    · subst hx
      have hentry : h x = Entry.mk none none := by
        cases hxe : h x with
        | mk n p =>
          rw [hxe] at hn hp
          exact congrArg₂ Entry.mk hn hp
      simp [setNext_apply, setPrev_apply, hentry]
    · simp [setNext_apply, setPrev_apply, hx]

/-- Witness for C10: removing the unlinked node 9 from the list `[0,1,2]`
leaves the list and the heap exactly as they were. -/
theorem C10_remove_nonmember_noop_witness :
    ((hW 9).next = none ∧ (hW 9).prev = none ∧ lW.head ≠ some 9 ∧ lW.tail ≠ some 9) ∧
    ((Remove hW lW 9).1 = lW ∧
      ((Remove hW lW 9).2 9).next = none ∧ ((Remove hW lW 9).2 9).prev = none ∧
      ∀ x, (Remove hW lW 9).2 x = hW x) :=
  ⟨by decide,
    C10_remove_nonmember_noop hW lW 9 (by decide) (by decide) (by decide) (by decide)⟩

end ilist
